import Mathlib

/-!
Verification of the cyclic, resource-constrained scheduling algorithm of the
schedule_optimizer repository (files `schedule_optimization.py` and
`schedule_optimization_v1.py`, which contain the same algorithmic core).

The embedding below follows the source code.  Durations and times are
rationals.  A configuration is an ordered list of steps, each with setup,
operation and cleaning durations and a list of attached tank ids, plus a
tank-cleaning-time table.  The builder iterates over cycles `1 .. N`:

* `pipeline_times` computes the ideal, unshifted cycle-local timings
  (source: the first inner loop, lines 44-62 of `schedule_optimization.py`);
* `cycle_shift` computes the single shift for the cycle
  (source: the second inner loop, lines 64-70);
* the third inner loop (lines 73-95) applies the shift, emits the Setup /
  Operation / Cleaning intervals and the tank-cleaning intervals, and
  updates `last_clean_end`; here this is `shifted_times`, `step_intervals`,
  `steps_intervals` and `next_clean_end`.

A tank lookup of an id absent from the table raises a `KeyError` in Python;
in the embedding the build returns `Except.error` with that tank id, and a
failed build carries no intervals (the Python function's local `schedule`
list is lost when the exception propagates).
-/

namespace ScheduleOpt

/-- One pipeline step: id, phase durations, and attached tank ids
(source: the `steps` dictionary entries `{'setup': .., 'operation': ..,
'cleaning': .., 'tanks': [..]}`). -/
structure Step where
  id : String
  setup : ℚ
  operation : ℚ
  cleaning : ℚ
  tanks : List String
deriving DecidableEq, Repr

/-- The six phase boundaries of one step within one cycle
(source: the `pipeline_times[step]` dictionary). -/
structure PhaseTimes where
  setup_start : ℚ
  setup_end : ℚ
  op_start : ℚ
  op_end : ℚ
  clean_start : ℚ
  clean_end : ℚ
deriving DecidableEq, Repr

/-- One emitted schedule entry
(source: the dictionaries appended to the `schedule` list:
`{'task': .., 'start': .., 'end': .., 'row': ..}`; the `end` key is named
`stop` here because `end` is reserved in Lean). -/
structure Interval where
  task : String
  start : ℚ
  stop : ℚ
  row : String
deriving DecidableEq, Repr

/-- Ideal unshifted timings, accumulating `prev_op_end`
(source: lines 44-62: `setup_start = prev_op_end - info['setup']`, phases
chained, `prev_op_end = op_end`). -/
def pipeline_times_aux : ℚ → List Step → List PhaseTimes
  | _, [] => []
  | prev_op_end, s :: rest =>
    let setup_start := prev_op_end - s.setup
    let setup_end := setup_start + s.setup
    let op_start := setup_end
    let op_end := op_start + s.operation
    let clean_start := op_end
    let clean_end := clean_start + s.cleaning
    ⟨setup_start, setup_end, op_start, op_end, clean_start, clean_end⟩ ::
      pipeline_times_aux op_end rest

/-- The unshifted timings of one cycle, starting from `prev_op_end = 0`. -/
def pipeline_times (steps : List Step) : List PhaseTimes :=
  pipeline_times_aux 0 steps

/-- The cycle shift (source: lines 64-70: `shift = 0`; for each step
`required_shift = max(0, last_clean_end[step] - setup_start)`;
`if required_shift > shift: shift = required_shift`).  The tracker values
are carried in a list parallel to the step order. -/
def cycle_shift (last_clean : List ℚ) (times : List PhaseTimes) : ℚ :=
  (List.zipWith (fun lce t => max 0 (lce - t.setup_start)) last_clean times).foldl
    (fun shift required => if shift < required then required else shift) 0

/-- Add the cycle shift to all six phase boundaries
(source: lines 76-81). -/
def apply_shift (shift : ℚ) (t : PhaseTimes) : PhaseTimes :=
  ⟨t.setup_start + shift, t.setup_end + shift, t.op_start + shift,
   t.op_end + shift, t.clean_start + shift, t.clean_end + shift⟩

/-- The final (shifted) timings of a cycle, given the tracker snapshot. -/
def shifted_times (steps : List Step) (last_clean : List ℚ) : List PhaseTimes :=
  (pipeline_times steps).map
    (apply_shift (cycle_shift last_clean (pipeline_times steps)))

/-- The tracker snapshot after one more cycle: each step's shifted
`clean_end` (source: line 95: `last_clean_end[step] = clean_end`). -/
def next_clean_end (steps : List Step) (last_clean : List ℚ) : List ℚ :=
  (shifted_times steps last_clean).map PhaseTimes.clean_end

/-- The tracker snapshot after `n` completed cycles; `last_clean_end steps 0`
is the initial all-zero snapshot (source: line 40:
`last_clean_end = {s: 0.0 for s in step_order}`). -/
def last_clean_end (steps : List Step) : ℕ → List ℚ
  | 0 => steps.map fun _ => (0 : ℚ)
  | n + 1 => next_clean_end steps (last_clean_end steps n)

/-- The final (shifted) timings of cycle `c` (1-based). -/
def times_of_cycle (steps : List Step) (c : ℕ) : List PhaseTimes :=
  shifted_times steps (last_clean_end steps (c - 1))

/-- Dictionary lookup in the tank table
(source: `tank_cleaning_time[tank]`, which raises `KeyError` when absent —
modelled by `none`). -/
def lookup_tank : List (String × ℚ) → String → Option ℚ
  | [], _ => none
  | (k, v) :: rest, tank => if k = tank then some v else lookup_tank rest tank

/-- The tank-cleaning intervals of one step (source: lines 88-92:
`t_start = setup_start; t_end = t_start + tank_cleaning_time[tank]`),
failing with the offending tank id when it is absent from the table. -/
def tank_intervals (table : List (String × ℚ)) (cycle : ℕ) (setup_start : ℚ) :
    List String → Except String (List Interval)
  | [] => .ok []
  | tank :: rest =>
    match lookup_tank table tank with
    | none => .error tank
    | some d =>
      match tank_intervals table cycle setup_start rest with
      | .error e => .error e
      | .ok l =>
        .ok (⟨tank ++ " Cleaning (Cycle " ++ toString cycle ++ ")",
              setup_start, setup_start + d, tank⟩ :: l)

/-- The intervals one step contributes to one cycle, in emission order:
Setup, Operation, Cleaning, then its tank-cleaning intervals
(source: lines 84-92). -/
def step_intervals (table : List (String × ℚ)) (cycle : ℕ) (s : Step)
    (t : PhaseTimes) : Except String (List Interval) :=
  match tank_intervals table cycle t.setup_start s.tanks with
  | .error e => .error e
  | .ok tanks =>
    .ok (⟨s.id ++ " Setup (Cycle " ++ toString cycle ++ ")",
          t.setup_start, t.setup_end, s.id⟩ ::
         ⟨s.id ++ " Operation (Cycle " ++ toString cycle ++ ")",
          t.op_start, t.op_end, s.id⟩ ::
         ⟨s.id ++ " Cleaning (Cycle " ++ toString cycle ++ ")",
          t.clean_start, t.clean_end, s.id⟩ ::
         tanks)

/-- The intervals of one cycle, stepping through the step list and its
(parallel) shifted timings in declared order (source: lines 73-92). -/
def steps_intervals (table : List (String × ℚ)) (cycle : ℕ) :
    List Step → List PhaseTimes → Except String (List Interval)
  | [], _ => .ok []
  | _ :: _, [] => .ok []
  | s :: ss, t :: ts =>
    match step_intervals table cycle s t with
    | .error e => .error e
    | .ok l =>
      match steps_intervals table cycle ss ts with
      | .error e => .error e
      | .ok rest => .ok (l ++ rest)

/-- All intervals of cycle `cycle` given the tracker snapshot. -/
def cycle_intervals (table : List (String × ℚ)) (steps : List Step)
    (cycle : ℕ) (last_clean : List ℚ) : Except String (List Interval) :=
  steps_intervals table cycle steps (shifted_times steps last_clean)

/-- The cycle loop: run the listed cycles in order, threading the tracker
snapshot, concatenating the emitted intervals (source: lines 42-95). -/
def schedule_cycles (table : List (String × ℚ)) (steps : List Step) :
    List ℕ → List ℚ → Except String (List Interval)
  | [], _ => .ok []
  | c :: rest, last_clean =>
    match cycle_intervals table steps c last_clean with
    | .error e => .error e
    | .ok here =>
      match schedule_cycles table steps rest (next_clean_end steps last_clean) with
      | .error e => .error e
      | .ok later => .ok (here ++ later)

/-- The whole build (source: `run_simulation` in
`schedule_optimization_v1.py`, restricted to the scheduling core — the
cycle count is the caller-supplied parameter; `for cycle in
range(1, num_cycles + 1)` runs no cycle when `num_cycles ≤ 0`). -/
def run_simulation (steps : List Step) (tank_cleaning_time : List (String × ℚ))
    (num_cycles : ℤ) : Except String (List Interval) :=
  schedule_cycles tank_cleaning_time steps
    ((List.range num_cycles.toNat).map (· + 1))
    (steps.map fun _ => (0 : ℚ))

/-- The shift formula as the claims state it: `max(0, max over all steps of
(lastCleanEnd[step] - setup_start[step]))`, the outer `max 0` applied once
to the maximum of the raw differences. -/
def shift_spec (last_clean : List ℚ) (times : List PhaseTimes) : ℚ :=
  match List.zipWith (fun lce t => lce - t.setup_start) last_clean times with
  | [] => 0
  | d :: ds => max 0 (ds.foldl max d)

/-- Decidable equality on build results, used to evaluate concrete builds. -/
instance {ε α : Type} [DecidableEq ε] [DecidableEq α] : DecidableEq (Except ε α)
  | .error e, .error e' =>
    if h : e = e' then .isTrue (by rw [h]) else .isFalse (fun k => h (Except.error.inj k))
  | .error _, .ok _ => .isFalse (fun k => Except.noConfusion k)
  | .ok _, .error _ => .isFalse (fun k => Except.noConfusion k)
  | .ok a, .ok b =>
    if h : a = b then .isTrue (by rw [h]) else .isFalse (fun k => h (Except.ok.inj k))

/-- The two-step demonstration configuration of the spec's concrete
scenario: A `{setup=3, operation=5, cleaning=1}`, B
`{setup=2, operation=4, cleaning=1}`, no tanks. -/
def stepA : Step := ⟨"A", 3, 5, 1, []⟩

/-- Step B of the demonstration configuration. -/
def stepB : Step := ⟨"B", 2, 4, 1, []⟩

/-- The two-step, tank-free demonstration configuration. -/
def demo_steps : List Step := [stepA, stepB]

/-- Variant of step A that attaches tank `T`. -/
def stepAT : Step := ⟨"A", 3, 5, 1, ["T"]⟩

/-- Variant of step B that attaches the same tank `T`. -/
def stepBT : Step := ⟨"B", 2, 4, 1, ["T"]⟩

/-- Configuration in which two distinct steps attach the same tank. -/
def tank_steps : List Step := [stepAT, stepBT]

/-- Tank table giving tank `T` a cleaning duration of 10. -/
def tank_table : List (String × ℚ) := [("T", 10)]

/-- A step referencing a tank that is absent from an empty tank table. -/
def bad_step : Step := ⟨"X", 1, 1, 1, ["T"]⟩

/-! ### Folded-maximum helper lemmas -/

theorem foldl_if_max_eq (l : List ℚ) : ∀ a : ℚ,
    l.foldl (fun shift required => if shift < required then required else shift) a
      = l.foldl max a := by
  induction l with
  | nil => intro a; rfl
  | cons x t ih =>
    intro a
    have hx : (if a < x then x else a) = max a x := by
      rcases le_or_lt x a with h | h
      · rw [if_neg (not_lt.mpr h), max_eq_left h]
      · rw [if_pos h, max_eq_right h.le]
    simp only [List.foldl_cons, hx, ih]

theorem le_foldl_max (l : List ℚ) : ∀ a : ℚ, a ≤ l.foldl max a := by
  induction l with
  | nil => intro a; exact le_refl a
  | cons x t ih => intro a; exact le_trans (le_max_left a x) (ih (max a x))

theorem mem_le_foldl_max (l : List ℚ) : ∀ x : ℚ, x ∈ l → ∀ a : ℚ, x ≤ l.foldl max a := by
  induction l with
  | nil => intro x hx; cases hx
  | cons y t ih =>
    intro x hx a
    rcases List.mem_cons.mp hx with h | h
    · subst h; exact le_trans (le_max_right a x) (le_foldl_max t (max a x))
    · exact ih x h (max a y)

theorem foldl_max_eq_or_mem (l : List ℚ) : ∀ a : ℚ, l.foldl max a = a ∨ l.foldl max a ∈ l := by
  induction l with
  | nil => intro a; exact Or.inl rfl
  | cons x t ih =>
    intro a
    rcases ih (max a x) with h | h
    · rcases max_choice a x with hm | hm
      · left; rw [List.foldl_cons, h, hm]
      · right; rw [List.foldl_cons, h, hm]; exact List.mem_cons_self x t
    · right; exact List.mem_cons_of_mem x h

theorem foldl_max_map_max0 (l : List ℚ) : ∀ a : ℚ,
    (l.map (max 0)).foldl max (max 0 a) = max 0 (l.foldl max a) := by
  induction l with
  | nil => intro a; rfl
  | cons x t ih =>
    intro a
    rw [List.map_cons, List.foldl_cons, List.foldl_cons]
    have h : max (max 0 a) (max 0 x) = max 0 (max a x) := by
      rw [max_max_max_comm, max_self]
    rw [h, ih]

/-! ### Optional-indexing helper lemmas -/

theorem mem_of_getElem_opt {α : Type} : ∀ (l : List α) (i : ℕ) (a : α),
    l[i]? = some a → a ∈ l := by
  intro l
  induction l with
  | nil => intro i a h; simp at h
  | cons x t ih =>
    intro i a h
    cases i with
    | zero =>
      rw [List.getElem?_cons_zero] at h
      injection h with h
      rw [← h]
      exact List.mem_cons_self x t
    | succ j =>
      rw [List.getElem?_cons_succ] at h
      exact List.mem_cons_of_mem x (ih j a h)

theorem getElem_opt_of_mem {α : Type} : ∀ (l : List α) (a : α),
    a ∈ l → ∃ i : ℕ, l[i]? = some a := by
  intro l
  induction l with
  | nil => intro a h; cases h
  | cons x t ih =>
    intro a h
    rcases List.mem_cons.mp h with h | h
    · exact ⟨0, by rw [List.getElem?_cons_zero, h]⟩
    · obtain ⟨i, hi⟩ := ih a h
      exact ⟨i + 1, by rw [List.getElem?_cons_succ]; exact hi⟩

theorem getElem_opt_zipWith {α β γ : Type} (f : α → β → γ) :
    ∀ (as : List α) (bs : List β) (i : ℕ) (a : α) (b : β),
      as[i]? = some a → bs[i]? = some b →
      (List.zipWith f as bs)[i]? = some (f a b) := by
  intro as
  induction as with
  | nil => intro bs i a b h _; simp at h
  | cons x t ih =>
    intro bs i a b ha hb
    cases bs with
    | nil => simp at hb
    | cons y u =>
      cases i with
      | zero =>
        rw [List.getElem?_cons_zero] at ha hb
        injection ha with ha
        injection hb with hb
        rw [List.zipWith_cons_cons, List.getElem?_cons_zero, ha, hb]
      | succ j =>
        rw [List.getElem?_cons_succ] at ha hb
        rw [List.zipWith_cons_cons, List.getElem?_cons_succ]
        exact ih u j a b ha hb

theorem getElem_opt_zipWith_inv {α β γ : Type} (f : α → β → γ) :
    ∀ (as : List α) (bs : List β) (i : ℕ) (c : γ),
      (List.zipWith f as bs)[i]? = some c →
      ∃ a b, as[i]? = some a ∧ bs[i]? = some b ∧ c = f a b := by
  intro as
  induction as with
  | nil => intro bs i c h; simp at h
  | cons x t ih =>
    intro bs i c h
    cases bs with
    | nil => simp at h
    | cons y u =>
      rw [List.zipWith_cons_cons] at h
      cases i with
      | zero =>
        rw [List.getElem?_cons_zero] at h
        injection h with h
        exact ⟨x, y, List.getElem?_cons_zero, List.getElem?_cons_zero, h.symm⟩
      | succ j =>
        rw [List.getElem?_cons_succ] at h
        obtain ⟨a, b, ha, hb, hc⟩ := ih u j c h
        refine ⟨a, b, ?_, ?_, hc⟩
        · rw [List.getElem?_cons_succ]; exact ha
        · rw [List.getElem?_cons_succ]; exact hb

/-! ### Structure of the unshifted pipeline timings -/

theorem length_pipeline_times_aux : ∀ (steps : List Step) (P : ℚ),
    (pipeline_times_aux P steps).length = steps.length := by
  intro steps
  induction steps with
  | nil => intro P; rfl
  | cons s rest ih => intro P; simp [pipeline_times_aux, ih]

theorem length_pipeline_times (steps : List Step) :
    (pipeline_times steps).length = steps.length :=
  length_pipeline_times_aux steps 0

/-- Each unshifted entry chains its phases exactly as the source computes
them from its step's durations. -/
theorem pipeline_times_aux_getElem : ∀ (steps : List Step) (P : ℚ) (i : ℕ)
    (t : PhaseTimes), (pipeline_times_aux P steps)[i]? = some t →
    ∃ s : Step, steps[i]? = some s ∧
      t.setup_end = t.setup_start + s.setup ∧
      t.op_start = t.setup_end ∧
      t.op_end = t.op_start + s.operation ∧
      t.clean_start = t.op_end ∧
      t.clean_end = t.clean_start + s.cleaning := by
  intro steps
  induction steps with
  | nil => intro P i t h; simp [pipeline_times_aux] at h
  | cons s rest ih =>
    intro P i t h
    cases i with
    | zero =>
      simp only [pipeline_times_aux, List.getElem?_cons_zero] at h
      injection h with h
      refine ⟨s, List.getElem?_cons_zero, ?_⟩
      rw [← h]
      exact ⟨rfl, rfl, rfl, rfl, rfl⟩
    | succ j =>
      simp only [pipeline_times_aux, List.getElem?_cons_succ] at h
      obtain ⟨s', hs', hrel⟩ := ih _ j t h
      refine ⟨s', ?_, hrel⟩
      rw [List.getElem?_cons_succ]
      exact hs'

/-- Adjacent unshifted entries satisfy `op_start(next) = op_end(previous)`:
the next step's setup is back-solved to finish exactly at the previous
operation's end. -/
theorem pipeline_times_aux_adjacent : ∀ (steps : List Step) (P : ℚ) (i : ℕ)
    (t t' : PhaseTimes), (pipeline_times_aux P steps)[i]? = some t →
    (pipeline_times_aux P steps)[i + 1]? = some t' →
    t'.op_start = t.op_end := by
  intro steps
  induction steps with
  | nil => intro P i t t' h _; simp [pipeline_times_aux] at h
  | cons s rest ih =>
    intro P i t t' h h'
    cases i with
    | zero =>
      simp only [pipeline_times_aux, List.getElem?_cons_zero,
        List.getElem?_cons_succ] at h h'
      injection h with h
      cases rest with
      | nil => simp [pipeline_times_aux] at h'
      | cons s2 rest2 =>
        simp only [pipeline_times_aux, List.getElem?_cons_zero] at h'
        injection h' with h'
        rw [← h, ← h']
        show (P - s.setup + s.setup + s.operation) - s2.setup + s2.setup
          = P - s.setup + s.setup + s.operation
        ring
    | succ j =>
      simp only [pipeline_times_aux, List.getElem?_cons_succ] at h h'
      exact ih _ j t t' h h'

/-! ### Properties of the cycle shift -/

theorem cycle_shift_eq_foldl_max (lce : List ℚ) (ts : List PhaseTimes) :
    cycle_shift lce ts
      = (List.zipWith (fun l t => max 0 (l - t.setup_start)) lce ts).foldl max 0 :=
  foldl_if_max_eq _ 0

theorem cycle_shift_nonneg (lce : List ℚ) (ts : List PhaseTimes) :
    0 ≤ cycle_shift lce ts := by
  rw [cycle_shift_eq_foldl_max]
  exact le_foldl_max _ 0

/-- Every step's required shift is honoured: the chosen shift dominates
`last_clean_end[i] - setup_start[i]` for every index. -/
theorem sub_le_cycle_shift {lce : List ℚ} {ts : List PhaseTimes} {i : ℕ}
    {l : ℚ} {t : PhaseTimes} (hl : lce[i]? = some l) (ht : ts[i]? = some t) :
    l - t.setup_start ≤ cycle_shift lce ts := by
  rw [cycle_shift_eq_foldl_max]
  have hz := getElem_opt_zipWith (fun l t => max 0 (l - t.setup_start)) lce ts i l t hl ht
  have hm := mem_of_getElem_opt _ i _ hz
  exact le_trans (le_max_right 0 _) (mem_le_foldl_max _ _ hm 0)

/-- A strictly positive shift is attained by some step: the shift equals
that step's raw requirement `last_clean_end[i] - setup_start[i]`. -/
theorem cycle_shift_achieved {lce : List ℚ} {ts : List PhaseTimes}
    (h : 0 < cycle_shift lce ts) :
    ∃ (i : ℕ) (l : ℚ) (t : PhaseTimes), lce[i]? = some l ∧ ts[i]? = some t ∧
      l - t.setup_start = cycle_shift lce ts := by
  rw [cycle_shift_eq_foldl_max] at h ⊢
  rcases foldl_max_eq_or_mem
      (List.zipWith (fun l t => max 0 (l - t.setup_start)) lce ts) 0 with h0 | hmem
  · rw [h0] at h
    exact absurd h (lt_irrefl 0)
  · obtain ⟨i, hi⟩ := getElem_opt_of_mem _ _ hmem
    obtain ⟨l, t, hl, ht, hlt⟩ := getElem_opt_zipWith_inv _ lce ts i _ hi
    refine ⟨i, l, t, hl, ht, ?_⟩
    rcases le_or_lt (l - t.setup_start) 0 with hle | hpos
    · exfalso
      rw [hlt, max_eq_left hle] at h
      exact lt_irrefl 0 h
    · rw [hlt, max_eq_right hpos.le]

/-- The loop of the source computes exactly the formula the spec states:
`max(0, max over all steps of (lastCleanEnd[step] - setup_start[step]))`. -/
theorem cycle_shift_eq_shift_spec (lce : List ℚ) (ts : List PhaseTimes) :
    cycle_shift lce ts = shift_spec lce ts := by
  rw [cycle_shift_eq_foldl_max]
  have hzip : List.zipWith (fun l t => max 0 (l - t.setup_start)) lce ts
      = (List.zipWith (fun l t => l - t.setup_start) lce ts).map (max 0) := by
    simp only [List.map_zipWith]
  rw [hzip]
  unfold shift_spec
  cases hz : List.zipWith (fun l t => l - t.setup_start) lce ts with
  | nil => rfl
  | cons d ds =>
    rw [List.map_cons, List.foldl_cons]
    have h0 : max (0 : ℚ) (max 0 d) = max 0 d := by
      rw [← max_assoc, max_self]
    rw [h0, foldl_max_map_max0]

/-! ### Shifted timings and the availability tracker -/

theorem length_shifted_times (steps : List Step) (lce : List ℚ) :
    (shifted_times steps lce).length = steps.length := by
  simp [shifted_times, length_pipeline_times]

theorem shifted_times_getElem {steps : List Step} {lce : List ℚ} {i : ℕ}
    {pt : PhaseTimes} (h : (pipeline_times steps)[i]? = some pt) :
    (shifted_times steps lce)[i]?
      = some (apply_shift (cycle_shift lce (pipeline_times steps)) pt) := by
  unfold shifted_times
  rw [List.getElem?_map, h, Option.map_some']

theorem shifted_times_getElem_inv {steps : List Step} {lce : List ℚ} {i : ℕ}
    {t : PhaseTimes} (h : (shifted_times steps lce)[i]? = some t) :
    ∃ pt : PhaseTimes, (pipeline_times steps)[i]? = some pt ∧
      t = apply_shift (cycle_shift lce (pipeline_times steps)) pt := by
  unfold shifted_times at h
  rw [List.getElem?_map] at h
  cases hp : (pipeline_times steps)[i]? with
  | none => rw [hp] at h; simp at h
  | some pt =>
    rw [hp, Option.map_some'] at h
    injection h with h
    exact ⟨pt, rfl, h.symm⟩

/-- The tracker value never exceeds the step's shifted setup start: the
core inequality behind the resource-non-reuse invariant. -/
theorem last_clean_le_shifted_setup_start {steps : List Step} {lce : List ℚ}
    {i : ℕ} {l : ℚ} {t : PhaseTimes} (hl : lce[i]? = some l)
    (ht : (shifted_times steps lce)[i]? = some t) : l ≤ t.setup_start := by
  obtain ⟨pt, hpt, rfl⟩ := shifted_times_getElem_inv ht
  have hle := sub_le_cycle_shift hl hpt
  show l ≤ pt.setup_start + cycle_shift lce (pipeline_times steps)
  linarith

theorem length_last_clean_end (steps : List Step) :
    ∀ n : ℕ, (last_clean_end steps n).length = steps.length
  | 0 => by simp [last_clean_end]
  | n + 1 => by simp [last_clean_end, next_clean_end, length_shifted_times]

theorem last_clean_end_zero {steps : List Step} {i : ℕ} {x : ℚ}
    (h : (last_clean_end steps 0)[i]? = some x) : x = 0 := by
  unfold last_clean_end at h
  rw [List.getElem?_map] at h
  obtain ⟨s, _, hx⟩ := Option.map_eq_some'.mp h
  exact hx.symm

theorem last_clean_end_succ_getElem (steps : List Step) (n i : ℕ) :
    (last_clean_end steps (n + 1))[i]?
      = ((shifted_times steps (last_clean_end steps n))[i]?).map PhaseTimes.clean_end := by
  show (next_clean_end steps (last_clean_end steps n))[i]? = _
  unfold next_clean_end
  rw [List.getElem?_map]

/-! ### Claim theorems -/

/-- Claim C1: zero-idle adjacency.  For every valid configuration (all
durations non-negative), every cycle `c`, and every pair of steps adjacent
in the declared order, the operation of the next step starts exactly when
the operation of the previous step ends — both in the unshifted
cycle-local timings (`pipeline_times`) and after the uniform cycle shift
is applied (`times_of_cycle`). -/
theorem C1_zero_idle_adjacency (steps : List Step)
    ( _hd : ∀ s ∈ steps, 0 ≤ s.setup ∧ 0 ≤ s.operation ∧ 0 ≤ s.cleaning)
    (c i : ℕ) (u u' v v' : PhaseTimes)
    (hu : (pipeline_times steps)[i]? = some u)
    (hu' : (pipeline_times steps)[i + 1]? = some u')
    (hv : (times_of_cycle steps c)[i]? = some v)
    (hv' : (times_of_cycle steps c)[i + 1]? = some v') :
    u'.op_start = u.op_end ∧ v'.op_start = v.op_end := by
  have h1 : u'.op_start = u.op_end := pipeline_times_aux_adjacent steps 0 i u u' hu hu'
  refine ⟨h1, ?_⟩
  obtain ⟨pt, hpt, rfl⟩ := shifted_times_getElem_inv hv
  obtain ⟨pt', hpt', rfl⟩ := shifted_times_getElem_inv hv'
  rw [hpt] at hu
  injection hu with hu
  rw [hpt'] at hu'
  injection hu' with hu'
  rw [← hu, ← hu'] at h1
  show pt'.op_start + _ = pt.op_end + _
  rw [h1]

/-- Closed witness for C1 at the spec's two-step configuration, cycle 1,
adjacent pair (A, B). -/
theorem C1_zero_idle_adjacency_witness :
    (∀ s ∈ demo_steps, 0 ≤ s.setup ∧ 0 ≤ s.operation ∧ 0 ≤ s.cleaning) ∧
    ((⟨3, 5, 5, 9, 9, 10⟩ : PhaseTimes).op_start
        = (⟨-3, 0, 0, 5, 5, 6⟩ : PhaseTimes).op_end ∧
     (⟨6, 8, 8, 12, 12, 13⟩ : PhaseTimes).op_start
        = (⟨0, 3, 3, 8, 8, 9⟩ : PhaseTimes).op_end) :=
  ⟨by norm_num [demo_steps, stepA, stepB],
   C1_zero_idle_adjacency demo_steps (by norm_num [demo_steps, stepA, stepB]) 1 0
    ⟨-3, 0, 0, 5, 5, 6⟩ ⟨3, 5, 5, 9, 9, 10⟩ ⟨0, 3, 3, 8, 8, 9⟩ ⟨6, 8, 8, 12, 12, 13⟩
    (by norm_num [pipeline_times, pipeline_times_aux, demo_steps, stepA, stepB])
    (by norm_num [pipeline_times, pipeline_times_aux, demo_steps, stepA, stepB])
    (by norm_num [times_of_cycle, shifted_times, last_clean_end, pipeline_times,
      pipeline_times_aux, demo_steps, stepA, stepB, cycle_shift, apply_shift])
    (by norm_num [times_of_cycle, shifted_times, last_clean_end, pipeline_times,
      pipeline_times_aux, demo_steps, stepA, stepB, cycle_shift, apply_shift])⟩

/-- Claim C2: resource non-reuse with minimal shift.  For every valid
configuration, every step index and every cycle `c > 1`, the shifted setup
start at cycle `c` is at least the shifted cleaning end at cycle `c - 1`;
and whenever the computed shift of cycle `c` is strictly positive, some
step attains equality. -/
theorem C2_resource_non_reuse (steps : List Step)
    ( _hd : ∀ s ∈ steps, 0 ≤ s.setup ∧ 0 ≤ s.operation ∧ 0 ≤ s.cleaning)
    (c : ℕ) (hc : 2 ≤ c) :
    (∀ (i : ℕ) (t p : PhaseTimes), (times_of_cycle steps c)[i]? = some t →
      (times_of_cycle steps (c - 1))[i]? = some p → p.clean_end ≤ t.setup_start) ∧
    (0 < cycle_shift (last_clean_end steps (c - 1)) (pipeline_times steps) →
      ∃ (i : ℕ) (t p : PhaseTimes), (times_of_cycle steps c)[i]? = some t ∧
        (times_of_cycle steps (c - 1))[i]? = some p ∧ t.setup_start = p.clean_end) := by
  obtain ⟨m, rfl⟩ : ∃ m, c = m + 2 := ⟨c - 2, by omega⟩
  constructor
  · intro i t p ht hp
    have ht' : (shifted_times steps (last_clean_end steps (m + 1)))[i]? = some t := ht
    have hp' : (shifted_times steps (last_clean_end steps m))[i]? = some p := hp
    have hlp : (last_clean_end steps (m + 1))[i]? = some p.clean_end := by
      rw [last_clean_end_succ_getElem, hp', Option.map_some']
    exact last_clean_le_shifted_setup_start hlp ht'
  · intro hpos
    have hpos' : 0 < cycle_shift (last_clean_end steps (m + 1)) (pipeline_times steps) := hpos
    obtain ⟨i, l, pt, hl, hpt, heq⟩ := cycle_shift_achieved hpos'
    have hl' := hl
    rw [last_clean_end_succ_getElem] at hl'
    obtain ⟨p, hp, hpl⟩ := Option.map_eq_some'.mp hl'
    refine ⟨i, apply_shift (cycle_shift (last_clean_end steps (m + 1))
      (pipeline_times steps)) pt, p, ?_, ?_, ?_⟩
    · exact shifted_times_getElem hpt
    · exact hp
    · show pt.setup_start + cycle_shift (last_clean_end steps (m + 1))
        (pipeline_times steps) = p.clean_end
      rw [hpl]
      linarith [heq]

/-- Closed witness for C2 at the spec's two-step configuration and cycle 2,
whose computed shift is 12 > 0. -/
theorem C2_resource_non_reuse_witness :
    (∀ s ∈ demo_steps, 0 ≤ s.setup ∧ 0 ≤ s.operation ∧ 0 ≤ s.cleaning) ∧ 2 ≤ 2 ∧
    ((∀ (i : ℕ) (t p : PhaseTimes), (times_of_cycle demo_steps 2)[i]? = some t →
        (times_of_cycle demo_steps (2 - 1))[i]? = some p →
        p.clean_end ≤ t.setup_start) ∧
     (0 < cycle_shift (last_clean_end demo_steps (2 - 1)) (pipeline_times demo_steps) →
        ∃ (i : ℕ) (t p : PhaseTimes), (times_of_cycle demo_steps 2)[i]? = some t ∧
          (times_of_cycle demo_steps (2 - 1))[i]? = some p ∧
          t.setup_start = p.clean_end)) :=
  ⟨by norm_num [demo_steps, stepA, stepB], by decide,
   C2_resource_non_reuse demo_steps (by norm_num [demo_steps, stepA, stepB]) 2 (by decide)⟩

/-- Claim C4: the computed shift equals the spec's formula
`max(0, max over all steps of (lastCleanEnd[step] - setup_start[step]))`
(`shift_spec`), it is a single non-negative scalar, and it is added
uniformly to all six phase boundaries of every step of the cycle. -/
theorem C4_shift_formula (steps : List Step) (lce : List ℚ) :
    cycle_shift lce (pipeline_times steps) = shift_spec lce (pipeline_times steps) ∧
    0 ≤ cycle_shift lce (pipeline_times steps) ∧
    (∀ (i : ℕ) (t : PhaseTimes), (pipeline_times steps)[i]? = some t →
      (shifted_times steps lce)[i]? = some
        ⟨t.setup_start + cycle_shift lce (pipeline_times steps),
         t.setup_end + cycle_shift lce (pipeline_times steps),
         t.op_start + cycle_shift lce (pipeline_times steps),
         t.op_end + cycle_shift lce (pipeline_times steps),
         t.clean_start + cycle_shift lce (pipeline_times steps),
         t.clean_end + cycle_shift lce (pipeline_times steps)⟩) := by
  refine ⟨cycle_shift_eq_shift_spec _ _, cycle_shift_nonneg _ _, ?_⟩
  intro i t ht
  exact shifted_times_getElem ht

/-- Claim C6: availability-tracker monotonicity.  The tracker starts at 0
for every step, and each cycle's update replaces a step's entry with a
value that is greater than or equal to the one it replaces. -/
theorem C6_tracker_monotone (steps : List Step)
    (hd : ∀ s ∈ steps, 0 ≤ s.setup ∧ 0 ≤ s.operation ∧ 0 ≤ s.cleaning) :
    (∀ x ∈ last_clean_end steps 0, x = 0) ∧
    (∀ (n i : ℕ) (a b : ℚ), (last_clean_end steps n)[i]? = some a →
      (last_clean_end steps (n + 1))[i]? = some b → a ≤ b) := by
  constructor
  · intro x hx
    obtain ⟨i, hi⟩ := getElem_opt_of_mem _ _ hx
    exact last_clean_end_zero hi
  · intro n i a b ha hb
    rw [last_clean_end_succ_getElem] at hb
    obtain ⟨t, ht, htb⟩ := Option.map_eq_some'.mp hb
    have h1 : a ≤ t.setup_start := last_clean_le_shifted_setup_start ha ht
    obtain ⟨pt, hpt, rfl⟩ := shifted_times_getElem_inv ht
    obtain ⟨s, hs, h2, h3, h4, h5, h6⟩ := pipeline_times_aux_getElem steps 0 i pt hpt
    have hmem := mem_of_getElem_opt _ _ _ hs
    obtain ⟨hsu, hop, hcl⟩ := hd s hmem
    rw [← htb]
    show a ≤ pt.clean_end + cycle_shift (last_clean_end steps n) (pipeline_times steps)
    have hns : pt.setup_start ≤ pt.clean_end := by
      rw [h6, h5, h4, h3, h2]
      linarith
    have h1' : a ≤ pt.setup_start
        + cycle_shift (last_clean_end steps n) (pipeline_times steps) := h1
    linarith

/-- Closed witness for C6 at the spec's two-step configuration. -/
theorem C6_tracker_monotone_witness :
    (∀ s ∈ demo_steps, 0 ≤ s.setup ∧ 0 ≤ s.operation ∧ 0 ≤ s.cleaning) ∧
    ((∀ x ∈ last_clean_end demo_steps 0, x = 0) ∧
     (∀ (n i : ℕ) (a b : ℚ), (last_clean_end demo_steps n)[i]? = some a →
       (last_clean_end demo_steps (n + 1))[i]? = some b → a ≤ b)) :=
  ⟨by norm_num [demo_steps, stepA, stepB],
   C6_tracker_monotone demo_steps (by norm_num [demo_steps, stepA, stepB])⟩

/-- Claim C3: the concrete scenario.  Two steps A `{3, 5, 1}` and
B `{2, 4, 1}` with no tanks, two cycles: the build emits exactly the twelve
absolute intervals the spec lists (cycle-1 shift 3, cycle-2 shift 12). -/
theorem C3_concrete_scenario :
    run_simulation demo_steps [] 2 = Except.ok [
      ⟨"A Setup (Cycle 1)", 0, 3, "A"⟩, ⟨"A Operation (Cycle 1)", 3, 8, "A"⟩,
      ⟨"A Cleaning (Cycle 1)", 8, 9, "A"⟩,
      ⟨"B Setup (Cycle 1)", 6, 8, "B"⟩, ⟨"B Operation (Cycle 1)", 8, 12, "B"⟩,
      ⟨"B Cleaning (Cycle 1)", 12, 13, "B"⟩,
      ⟨"A Setup (Cycle 2)", 9, 12, "A"⟩, ⟨"A Operation (Cycle 2)", 12, 17, "A"⟩,
      ⟨"A Cleaning (Cycle 2)", 17, 18, "A"⟩,
      ⟨"B Setup (Cycle 2)", 15, 17, "B"⟩, ⟨"B Operation (Cycle 2)", 17, 21, "B"⟩,
      ⟨"B Cleaning (Cycle 2)", 21, 22, "B"⟩] := by
  norm_num [run_simulation, schedule_cycles, cycle_intervals, steps_intervals,
    step_intervals, tank_intervals, shifted_times, next_clean_end, last_clean_end,
    pipeline_times, pipeline_times_aux, cycle_shift, apply_shift, demo_steps,
    stepA, stepB, List.range_succ]
  exact ⟨rfl, rfl, rfl, rfl, rfl, rfl, rfl, rfl, rfl, rfl, rfl, rfl⟩

/-- Claim C9 counterexample: at the negative cycle count `-1` the build
does not fail — it returns the empty interval sequence successfully, so no
ArgumentError (or any error) is surfaced. -/
theorem C9_counterexample : run_simulation demo_steps [] (-1) = Except.ok [] := rfl

/-- Claim C9 amended: for every configuration and every negative cycle
count, the cycle loop simply runs zero times and the build succeeds with
the empty interval sequence (a negative count is treated like zero; no
error is raised). -/
theorem C9_negative_cycles_ok_empty (steps : List Step)
    (table : List (String × ℚ)) (n : ℤ) (hn : n < 0) :
    run_simulation steps table n = Except.ok [] := by
  unfold run_simulation
  rw [Int.toNat_of_nonpos hn.le]
  rfl

/-- Closed witness for the amended C9, at a different input than the
counterexample. -/
theorem C9_negative_cycles_ok_empty_witness :
    run_simulation [bad_step] [] (-2) = Except.ok [] :=
  C9_negative_cycles_ok_empty [bad_step] [] (-2) (by decide)

/-- Claim C10: shared resources are not mutually excluded across steps.
With steps A and B both attaching tank `T` (cleaning duration 10), one
cycle emits two `T`-cleaning intervals `[0, 10]` and `[6, 16]` whose time
ranges overlap. -/
theorem C10_shared_tank_overlap :
    ∃ out : List Interval, run_simulation tank_steps tank_table 1 = Except.ok out ∧
      (⟨"T Cleaning (Cycle 1)", 0, 10, "T"⟩ : Interval) ∈ out ∧
      (⟨"T Cleaning (Cycle 1)", 6, 16, "T"⟩ : Interval) ∈ out ∧
      ((6 : ℚ) < 10 ∧ (0 : ℚ) < 16) := by
  have heval : run_simulation tank_steps tank_table 1 = Except.ok [
      ⟨"A Setup (Cycle 1)", 0, 3, "A"⟩, ⟨"A Operation (Cycle 1)", 3, 8, "A"⟩,
      ⟨"A Cleaning (Cycle 1)", 8, 9, "A"⟩, ⟨"T Cleaning (Cycle 1)", 0, 10, "T"⟩,
      ⟨"B Setup (Cycle 1)", 6, 8, "B"⟩, ⟨"B Operation (Cycle 1)", 8, 12, "B"⟩,
      ⟨"B Cleaning (Cycle 1)", 12, 13, "B"⟩, ⟨"T Cleaning (Cycle 1)", 6, 16, "T"⟩] := by
    norm_num [run_simulation, schedule_cycles, cycle_intervals, steps_intervals,
      step_intervals, tank_intervals, lookup_tank, shifted_times, next_clean_end,
      last_clean_end, pipeline_times, pipeline_times_aux, cycle_shift, apply_shift,
      tank_steps, stepAT, stepBT, tank_table, List.range_succ]
    exact ⟨rfl, rfl, rfl, rfl, rfl, rfl, rfl, rfl⟩
  refine ⟨_, heval, ?_, ?_, by norm_num, by norm_num⟩
  · simp
  · simp

/-! ### Tank-interval anchoring -/

theorem getElem_opt_cons3 {α : Type} (a b c : α) (l : List α) (j : ℕ) :
    (a :: b :: c :: l)[j + 3]? = l[j]? := by
  have h3 : j + 3 = ((j + 1) + 1) + 1 := by omega
  rw [h3, List.getElem?_cons_succ, List.getElem?_cons_succ, List.getElem?_cons_succ]

/-- Each successfully emitted tank-cleaning interval starts at the supplied
setup start and extends by that tank's own table duration, in declared
order. -/
theorem tank_intervals_getElem (table : List (String × ℚ)) (c : ℕ) (ss : ℚ) :
    ∀ (tanks : List String) (out : List Interval),
    tank_intervals table c ss tanks = Except.ok out →
    ∀ (j : ℕ) (tk : String), tanks[j]? = some tk →
    ∃ d : ℚ, lookup_tank table tk = some d ∧
      out[j]? = some ⟨tk ++ " Cleaning (Cycle " ++ toString c ++ ")", ss, ss + d, tk⟩ := by
  intro tanks
  induction tanks with
  | nil => intro out _ j tk hj; simp at hj
  | cons tank rest ih =>
    intro out h j tk hj
    cases hlk : lookup_tank table tank with
    | none =>
      simp only [tank_intervals, hlk] at h
      exact Except.noConfusion h
    | some d =>
      cases hrec : tank_intervals table c ss rest with
      | error e =>
        simp only [tank_intervals, hlk, hrec] at h
        exact Except.noConfusion h
      | ok l =>
        simp only [tank_intervals, hlk, hrec, Except.ok.injEq] at h
        cases j with
        | zero =>
          rw [List.getElem?_cons_zero] at hj
          injection hj with hj
          refine ⟨d, ?_, ?_⟩
          · rw [← hj]; exact hlk
          · rw [← h, ← hj, List.getElem?_cons_zero]
        | succ i =>
          rw [List.getElem?_cons_succ] at hj
          obtain ⟨d', hd', hout⟩ := ih l hrec i tk hj
          refine ⟨d', hd', ?_⟩
          rw [← h, List.getElem?_cons_succ]
          exact hout

/-- Claim C7: ResourceCleaning anchoring.  For every step (with its shifted
cycle timings), every cycle and every tank attached to the step in declared
order, the emitted tank-cleaning interval starts exactly at the step's
shifted `setup_start` and has duration exactly the tank's own cleaning
duration from the table.  The tank intervals sit after the step's three own
intervals, in declared tank order. -/
theorem C7_resource_cleaning_anchor (table : List (String × ℚ))
    (steps : List Step) (c i : ℕ) (s : Step) (t : PhaseTimes)
    (out : List Interval) ( _hs : steps[i]? = some s)
    ( _ht : (times_of_cycle steps c)[i]? = some t)
    (hout : step_intervals table c s t = Except.ok out) :
    ∀ (j : ℕ) (tk : String), s.tanks[j]? = some tk →
    ∃ d : ℚ, lookup_tank table tk = some d ∧
      out[j + 3]? = some ⟨tk ++ " Cleaning (Cycle " ++ toString c ++ ")",
        t.setup_start, t.setup_start + d, tk⟩ := by
  intro j tk hj
  cases htl : tank_intervals table c t.setup_start s.tanks with
  | error e =>
    simp only [step_intervals, htl] at hout
    exact Except.noConfusion hout
  | ok tl =>
    simp only [step_intervals, htl, Except.ok.injEq] at hout
    obtain ⟨d, hd2, hget⟩ := tank_intervals_getElem table c t.setup_start
      s.tanks tl htl j tk hj
    refine ⟨d, hd2, ?_⟩
    rw [← hout, getElem_opt_cons3]
    exact hget

/-- Closed witness for C7: step A of the shared-tank configuration at
cycle 1, whose tank `T` interval is `[0, 10]`. -/
theorem C7_resource_cleaning_anchor_witness :
    ∃ d : ℚ, lookup_tank tank_table "T" = some d ∧
      ([⟨"A Setup (Cycle 1)", 0, 3, "A"⟩, ⟨"A Operation (Cycle 1)", 3, 8, "A"⟩,
        ⟨"A Cleaning (Cycle 1)", 8, 9, "A"⟩, ⟨"T Cleaning (Cycle 1)", 0, 10, "T"⟩]
        : List Interval)[0 + 3]?
        = some ⟨"T" ++ " Cleaning (Cycle " ++ toString 1 ++ ")",
            PhaseTimes.setup_start ⟨0, 3, 3, 8, 8, 9⟩,
            PhaseTimes.setup_start ⟨0, 3, 3, 8, 8, 9⟩ + d, "T"⟩ :=
  C7_resource_cleaning_anchor tank_table tank_steps 1 0 stepAT ⟨0, 3, 3, 8, 8, 9⟩
    [⟨"A Setup (Cycle 1)", 0, 3, "A"⟩, ⟨"A Operation (Cycle 1)", 3, 8, "A"⟩,
     ⟨"A Cleaning (Cycle 1)", 8, 9, "A"⟩, ⟨"T Cleaning (Cycle 1)", 0, 10, "T"⟩]
    (by simp [tank_steps])
    (by norm_num [times_of_cycle, shifted_times, last_clean_end, pipeline_times,
      pipeline_times_aux, tank_steps, stepAT, stepBT, cycle_shift, apply_shift])
    (by norm_num [step_intervals, tank_intervals, lookup_tank, tank_table, stepAT]
        exact ⟨rfl, rfl, rfl, rfl⟩)
    0 "T" (by simp [stepAT])

/-! ### Build success and cycle-stability machinery -/

theorem tank_intervals_ok (table : List (String × ℚ)) (c : ℕ) (ss : ℚ) :
    ∀ tanks : List String, (∀ tk ∈ tanks, (lookup_tank table tk).isSome) →
    ∃ r, tank_intervals table c ss tanks = Except.ok r := by
  intro tanks
  induction tanks with
  | nil => intro _; exact ⟨[], rfl⟩
  | cons tank rest ih =>
    intro h
    obtain ⟨d, hd2⟩ := Option.isSome_iff_exists.mp (h tank (List.mem_cons_self tank rest))
    obtain ⟨r, hr⟩ := ih (fun tk htk => h tk (List.mem_cons_of_mem tank htk))
    exact ⟨⟨tank ++ " Cleaning (Cycle " ++ toString c ++ ")", ss, ss + d, tank⟩ :: r,
      by simp only [tank_intervals, hd2, hr]⟩

theorem step_intervals_ok (table : List (String × ℚ)) (c : ℕ) (s : Step)
    (t : PhaseTimes) (h : ∀ tk ∈ s.tanks, (lookup_tank table tk).isSome) :
    ∃ r, step_intervals table c s t = Except.ok r := by
  obtain ⟨r, hr⟩ := tank_intervals_ok table c t.setup_start s.tanks h
  exact ⟨⟨s.id ++ " Setup (Cycle " ++ toString c ++ ")", t.setup_start, t.setup_end, s.id⟩ ::
    ⟨s.id ++ " Operation (Cycle " ++ toString c ++ ")", t.op_start, t.op_end, s.id⟩ ::
    ⟨s.id ++ " Cleaning (Cycle " ++ toString c ++ ")", t.clean_start, t.clean_end, s.id⟩ :: r,
    by simp only [step_intervals, hr]⟩

theorem steps_intervals_ok (table : List (String × ℚ)) (c : ℕ) :
    ∀ (ss : List Step) (ts : List PhaseTimes),
    (∀ s ∈ ss, ∀ tk ∈ s.tanks, (lookup_tank table tk).isSome) →
    ∃ r, steps_intervals table c ss ts = Except.ok r := by
  intro ss
  induction ss with
  | nil => intro ts _; exact ⟨[], rfl⟩
  | cons s ss2 ih =>
    intro ts h
    cases ts with
    | nil => exact ⟨[], rfl⟩
    | cons t ts2 =>
      obtain ⟨r1, hr1⟩ := step_intervals_ok table c s t (h s (List.mem_cons_self s ss2))
      obtain ⟨r2, hr2⟩ := ih ts2 (fun s2 hs2 => h s2 (List.mem_cons_of_mem s hs2))
      exact ⟨r1 ++ r2, by simp only [steps_intervals, hr1, hr2]⟩

theorem cycle_intervals_ok (table : List (String × ℚ)) (steps : List Step)
    (htk : ∀ s ∈ steps, ∀ tk ∈ s.tanks, (lookup_tank table tk).isSome)
    (c : ℕ) (lce : List ℚ) : ∃ r, cycle_intervals table steps c lce = Except.ok r :=
  steps_intervals_ok table c steps _ htk

theorem schedule_cycles_ok (table : List (String × ℚ)) (steps : List Step)
    (htk : ∀ s ∈ steps, ∀ tk ∈ s.tanks, (lookup_tank table tk).isSome) :
    ∀ (cs : List ℕ) (lce : List ℚ),
    ∃ r, schedule_cycles table steps cs lce = Except.ok r := by
  intro cs
  induction cs with
  | nil => intro lce; exact ⟨[], rfl⟩
  | cons c t ih =>
    intro lce
    obtain ⟨i, hi⟩ := cycle_intervals_ok table steps htk c lce
    obtain ⟨r, hr⟩ := ih (next_clean_end steps lce)
    exact ⟨i ++ r, by simp only [schedule_cycles, hi, hr]⟩

/-- Appending further cycles to the cycle list only appends further
intervals: the earlier cycles' output is reproduced unchanged. -/
theorem schedule_cycles_ok_append (table : List (String × ℚ)) (steps : List Step)
    (htk : ∀ s ∈ steps, ∀ tk ∈ s.tanks, (lookup_tank table tk).isSome) :
    ∀ (l1 l2 : List ℕ) (lce : List ℚ),
    ∃ a b, schedule_cycles table steps l1 lce = Except.ok a ∧
      schedule_cycles table steps (l1 ++ l2) lce = Except.ok (a ++ b) := by
  intro l1
  induction l1 with
  | nil =>
    intro l2 lce
    obtain ⟨b, hb⟩ := schedule_cycles_ok table steps htk l2 lce
    exact ⟨[], b, rfl, by simpa using hb⟩
  | cons c t ih =>
    intro l2 lce
    obtain ⟨i, hi⟩ := cycle_intervals_ok table steps htk c lce
    obtain ⟨a, b, ha, hab⟩ := ih l2 (next_clean_end steps lce)
    refine ⟨i ++ a, b, ?_, ?_⟩
    · simp only [schedule_cycles, hi, ha]
    · show schedule_cycles table steps (c :: (t ++ l2)) lce = _
      simp only [schedule_cycles, hi, hab, List.append_assoc]

/-- Claim C5: cycle-stability.  For every valid configuration (non-negative
durations, all referenced tanks present), building with `N + 1` cycles
succeeds and reproduces the `N`-cycle interval sequence unchanged as its
initial segment, followed by the extra cycle's intervals. -/
theorem C5_earlier_cycles_unchanged (steps : List Step)
    (table : List (String × ℚ))
    ( _hd : ∀ s ∈ steps, 0 ≤ s.setup ∧ 0 ≤ s.operation ∧ 0 ≤ s.cleaning)
    (htk : ∀ s ∈ steps, ∀ tk ∈ s.tanks, (lookup_tank table tk).isSome) (n : ℕ) :
    ∃ a b : List Interval, run_simulation steps table (n : ℤ) = Except.ok a ∧
      run_simulation steps table ((n : ℤ) + 1) = Except.ok (a ++ b) := by
  have h1 : ((n : ℤ)).toNat = n := by omega
  have h2 : ((n : ℤ) + 1).toNat = n + 1 := by omega
  obtain ⟨a, b, ha, hab⟩ := schedule_cycles_ok_append table steps htk
    ((List.range n).map (· + 1)) [n + 1] (steps.map fun _ => (0 : ℚ))
  refine ⟨a, b, ?_, ?_⟩
  · unfold run_simulation
    rw [h1]
    exact ha
  · unfold run_simulation
    rw [h2, List.range_succ, List.map_append]
    exact hab

/-- Closed witness for C5: the spec's two-step configuration with the empty
tank table, `N = 1`. -/
theorem C5_earlier_cycles_unchanged_witness :
    ∃ a b : List Interval,
      run_simulation demo_steps [] ((1 : ℕ) : ℤ) = Except.ok a ∧
      run_simulation demo_steps [] (((1 : ℕ) : ℤ) + 1) = Except.ok (a ++ b) :=
  C5_earlier_cycles_unchanged demo_steps []
    (by norm_num [demo_steps, stepA, stepB])
    (by simp [demo_steps, stepA, stepB]) 1

/-! ### Failure on unknown resource references -/

theorem tank_intervals_not_ok (table : List (String × ℚ)) (c : ℕ) (ss : ℚ) :
    ∀ (tanks : List String) (tk : String), tk ∈ tanks →
    lookup_tank table tk = none →
    ∀ r, tank_intervals table c ss tanks ≠ Except.ok r := by
  intro tanks
  induction tanks with
  | nil => intro tk h; cases h
  | cons tank rest ih =>
    intro tk h hnone r
    rcases List.mem_cons.mp h with heq | hmem
    · subst heq
      intro hok
      simp only [tank_intervals, hnone] at hok
      exact Except.noConfusion hok
    · cases hlk : lookup_tank table tank with
      | none =>
        intro hok
        simp only [tank_intervals, hlk] at hok
        exact Except.noConfusion hok
      | some d =>
        cases hrec : tank_intervals table c ss rest with
        | error e =>
          intro hok
          simp only [tank_intervals, hlk, hrec] at hok
          exact Except.noConfusion hok
        | ok l => exact absurd hrec (ih tk hmem hnone l)

theorem step_intervals_not_ok (table : List (String × ℚ)) (c : ℕ) (s : Step)
    (t : PhaseTimes) (hmiss : ∃ tk ∈ s.tanks, lookup_tank table tk = none) :
    ∀ r, step_intervals table c s t ≠ Except.ok r := by
  obtain ⟨tk, htk, hnone⟩ := hmiss
  intro r hok
  cases htl : tank_intervals table c t.setup_start s.tanks with
  | error e =>
    simp only [step_intervals, htl] at hok
    exact Except.noConfusion hok
  | ok tl => exact tank_intervals_not_ok table c t.setup_start s.tanks tk htk hnone tl htl

theorem steps_intervals_not_ok (table : List (String × ℚ)) (c : ℕ) :
    ∀ (ss : List Step) (ts : List PhaseTimes), ss.length ≤ ts.length →
    (∃ s ∈ ss, ∃ tk ∈ s.tanks, lookup_tank table tk = none) →
    ∀ r, steps_intervals table c ss ts ≠ Except.ok r := by
  intro ss
  induction ss with
  | nil => intro ts _ hmiss; simp at hmiss
  | cons s ss2 ih =>
    intro ts hlen hmiss r hok
    cases ts with
    | nil => simp at hlen
    | cons t ts2 =>
      have hlen2 : ss2.length ≤ ts2.length := by
        simp only [List.length_cons] at hlen
        omega
      rcases hmiss with ⟨s0, hs0, htk⟩
      rcases List.mem_cons.mp hs0 with heq | hmem
      · subst heq
        cases hsi : step_intervals table c s0 t with
        | error e =>
          simp only [steps_intervals, hsi] at hok
          exact Except.noConfusion hok
        | ok l => exact step_intervals_not_ok table c s0 t htk l hsi
      · cases hsi : step_intervals table c s t with
        | error e =>
          simp only [steps_intervals, hsi] at hok
          exact Except.noConfusion hok
        | ok l =>
          cases hrec : steps_intervals table c ss2 ts2 with
          | error e =>
            simp only [steps_intervals, hsi, hrec] at hok
            exact Except.noConfusion hok
          | ok l2 => exact ih ts2 hlen2 ⟨s0, hmem, htk⟩ l2 hrec

/-- A build whose cycle list is non-empty fails whenever some step
references a tank absent from the table. -/
theorem schedule_cycles_not_ok (table : List (String × ℚ)) (steps : List Step)
    (hmiss : ∃ s ∈ steps, ∃ tk ∈ s.tanks, lookup_tank table tk = none)
    (c : ℕ) (rest : List ℕ) (lce : List ℚ) :
    ∃ e, schedule_cycles table steps (c :: rest) lce = Except.error e := by
  cases hcv : cycle_intervals table steps c lce with
  | error e => exact ⟨e, by simp only [schedule_cycles, hcv]⟩
  | ok r =>
    exfalso
    have hlen : steps.length ≤ (shifted_times steps lce).length := by
      rw [length_shifted_times]
    exact steps_intervals_not_ok table c steps (shifted_times steps lce)
      hlen hmiss r hcv

/-- Claim C8 counterexample: a configuration whose only step references the
absent tank `T`, built with cycle count 0, is not rejected — the build
returns successfully with the empty interval sequence, so the unknown
resource reference is not validated before running cycles. -/
theorem C8_counterexample : run_simulation [bad_step] [] 0 = Except.ok [] := rfl

/-- Claim C8 amended: for every cycle count `≥ 1`, a configuration in which
some step references a resource id absent from the table makes the build
fail with an error (during cycle 1, at the first offending lookup) and no
interval sequence is returned; with cycle count `≤ 0` the build instead
returns the empty schedule without validating anything. -/
theorem C8_unknown_resource_fails (table : List (String × ℚ))
    (steps : List Step) (n : ℤ) (hn : 1 ≤ n)
    (hmiss : ∃ s ∈ steps, ∃ tk ∈ s.tanks, lookup_tank table tk = none) :
    ∃ e, run_simulation steps table n = Except.error e := by
  obtain ⟨m, hm⟩ : ∃ m, n.toNat = m + 1 := ⟨n.toNat - 1, by omega⟩
  have hc : (List.range (m + 1)).map (· + 1)
      = 1 :: ((List.range m).map Nat.succ).map (· + 1) := by
    simp [List.range_succ_eq_map]
  unfold run_simulation
  rw [hm, hc]
  exact schedule_cycles_not_ok table steps hmiss 1 _ _

/-- Closed witness for the amended C8: the bad configuration with one
cycle fails. -/
theorem C8_unknown_resource_fails_witness :
    ∃ e, run_simulation [bad_step] [] 1 = Except.error e :=
  C8_unknown_resource_fails [] [bad_step] 1 (by decide)
    ⟨bad_step, List.mem_cons_self bad_step [], "T", by simp [bad_step], rfl⟩

end ScheduleOpt
